import Mathlib

/-!
# hpbrewton/schedule: the constraint encoding of `Schedule.Assign` (sched.go)

`Assign` declares one integer constant per person and duty hour, asserts for each
of them a disjunction of equalities with the person's encoded free hours, asserts
a disequality for every ordered pair of different positions of `vars`, and asks
the solver once.

The embedding follows the three loops of `Assign` with explicit state passing.
A Go slice of `*z3.AST` is a list of options (`none` is the nil pointer); an index
out of range, the use of a nil pointer and `make` with a negative length are run
time panics, modelled by `none`. Go's `int` is 64 bits wide: the one arithmetic
expression on input data, `(dayno+1)*100+hour`, wraps around (`wrapInt`). Memory
limits of `make` are not modelled, nor are the conversions inside the z3 binding.
The solver is a parameter of `Assign`; the meaning of the terms handed to it is
given by `evalInt` and `holds`.

The constraints asserted by `Assign` are the list `assertedConstraints` returns:
what has been asserted when the run reaches `s.Check()`. A run that panics reaches
no check and has no such list. `assertedConstraints_eq` gives the list in closed
form and the condition under which the run gets there.
-/

namespace Sched

/-! ## Data model (sched.go, lines 12-20) -/

/-- A person: a name and the free hours of monday to friday (`[5][]int`). -/
structure Person where
  Name : String
  Hours : Fin 5 → List Int

/-- A schedule: the people and how many hours each of them fills. -/
structure Schedule where
  People : List Person
  PerPersonHours : Int

/-- The five day indices that `range person.Hours` runs through, in order. -/
def weekdays : List (Fin 5) := [0, 1, 2, 3, 4]

/-- The five day lists of a `[5][]int` literal. -/
def mkHours (mon tue wed thu fri : List Int) : Fin 5 → List Int
  | 0 => mon
  | 1 => tue
  | 2 => wed
  | 3 => thu
  | 4 => fri

/-! ## The solver's terms -/

/-- Integer-sorted terms: `ctx.Const(ctx.Symbol(name), ctx.IntSort())` and
`ctx.Int(v, ctx.IntSort())`. A constant is identified by its symbol. -/
inductive IntAST where
  | const (symbol : String)
  | int (v : Int)
  deriving DecidableEq

/-- Boolean terms: `ctx.False()`, `a.Or(b)`, `x.Eq(y)` and `a.Not()`. -/
inductive BoolAST where
  | cfalse
  | or (a b : BoolAST)
  | eq (x y : IntAST)
  | not (a : BoolAST)
  deriving DecidableEq

/-- The verdict of `s.Check()` (`z3.LBool`). -/
inductive LBool where
  | False
  | Undef
  | True
  deriving DecidableEq

/-- Value of an integer term in a model, a map from symbols to integers. -/
def evalInt (m : String → Int) : IntAST → Int
  | IntAST.const symbol => m symbol
  | IntAST.int v => v

/-- Truth of a boolean term in a model. -/
def holds (m : String → Int) : BoolAST → Bool
  | BoolAST.cfalse => false
  | BoolAST.or a b => holds m a || holds m b
  | BoolAST.eq x y => decide (evalInt m x = evalInt m y)
  | BoolAST.not a => !(holds m a)

/-- A model satisfies a list of asserted constraints. -/
def Satisfies (m : String → Int) (cs : List BoolAST) : Prop :=
  ∀ c ∈ cs, holds m c = true

instance (m : String → Int) (cs : List BoolAST) : Decidable (Satisfies m cs) :=
  inferInstanceAs (Decidable (∀ c ∈ cs, holds m c = true))

/-! ## Go primitives -/

/-- The value a result of 64 bit `int` arithmetic wraps to. -/
def wrapInt (x : Int) : Int := (x + 2 ^ 63) % 2 ^ 64 - 2 ^ 63

/-- The slot code `(dayno+1)*100+hour` of line 65, in Go's `int`. -/
def encode (dayno : Nat) (hour : Int) : Int := wrapInt (((dayno : Int) + 1) * 100 + hour)

/-- Decimal text of a non-negative counter: `strconv.Itoa(i)`. -/
def Itoa (i : Nat) : String := Nat.repr i

/-- The symbol of a duty variable:
`strings.Join([]string{person.Name, strconv.Itoa(i)}, "_")` (line 49). -/
def varName (person : Person) (i : Nat) : String := person.Name ++ "_" ++ Itoa i

/-- A Go slice of `*z3.AST`; `none` is the nil pointer. -/
abbrev Slice := List (Option IntAST)

/-- The assignment `xs[i] = x`; `none` is the index-out-of-range panic. -/
def store (xs : Slice) (i : Nat) (x : IntAST) : Option Slice :=
  if i < xs.length then some (xs.set i (some x)) else none

/-- The read `xs[i]` used as the receiver or argument of `Eq`; `none` is the panic
of an index out of range or of a nil pointer. -/
def load (xs : Slice) (i : Nat) : Option IntAST :=
  match xs[i]? with
  | some (some x) => some x
  | _ => none

/-! ## The three loops of `Assign` -/

/-- Lines 45-52: `vars` is made with `len(People)*PerPersonHours` nil entries (a
negative length panics) and filled person by person, `v` counting the writes. -/
def declareVars (s : Schedule) : Option Slice :=
  if (s.People.length : Int) * s.PerPersonHours < 0 then none
  else
    (s.People.foldlM (fun st person =>
      (List.range s.PerPersonHours.toNat).foldlM (fun (st : Slice × Nat) i =>
        (store st.1 st.2 (IntAST.const (varName person i))).map fun vars => (vars, st.2 + 1))
        st)
      (List.replicate ((s.People.length : Int) * s.PerPersonHours).toNat none, 0)).map
      Prod.fst

/-- Lines 62-68: with `h` starting at 0, every hour of every day of the person is
written to `hourList[h]` as its slot code, `h` counting the writes. The buffer is
the one shared by all people; entries from `h` on are left as they were. -/
def fillHourList (person : Person) (hourList : Slice) : Option (Slice × Nat) :=
  weekdays.foldlM (fun st dayno =>
    (person.Hours dayno).foldlM (fun (st : Slice × Nat) hour =>
      (store st.1 st.2 (IntAST.int (encode dayno.val hour))).map fun hl => (hl, st.2 + 1))
      st)
    (hourList, 0)

/-- Lines 70-73: `openHours` starts as `ctx.False()` and is or-ed with
`vars[v].Eq(hourList[j])` for `j` from 0 to `h-1`. -/
def openHours (vars hourList : Slice) (v h : Nat) : Option BoolAST :=
  (List.range h).foldlM (fun acc j =>
    (load vars v).bind fun x =>
      (load hourList j).bind fun c => some (BoolAST.or acc (BoolAST.eq x c)))
    BoolAST.cfalse

/-- The state of the second loop: the shared buffer `hourList`, the running index
`v` into `vars`, and what has been asserted so far, oldest first. -/
structure EncState where
  hourList : Slice
  v : Nat
  asserted : List BoolAST

/-- Lines 61-77, one person: fill `hourList`, then assert `openHours` for each of
the person's `PerPersonHours` variables, advancing `v`. -/
def assertAvailability (vars : Slice) (k : Nat) (st : EncState) (person : Person) :
    Option EncState :=
  (fillHourList person st.hourList).bind fun filled =>
    (List.range k).foldlM (fun (st : EncState) _ =>
      (openHours vars st.hourList st.v filled.2).map fun c =>
        { st with v := st.v + 1, asserted := st.asserted ++ [c] })
      { st with hourList := filled.1 }

/-- Lines 80-86: for every pair of positions `i`, `j` of `vars` with `i != j`,
assert `vars[i].Eq(vars[j]).Not()`. -/
def assertDistinct (vars : Slice) (asserted : List BoolAST) : Option (List BoolAST) :=
  (List.range vars.length).foldlM (fun acc i =>
    (List.range vars.length).foldlM (fun acc j =>
      if i ≠ j then
        (load vars i).bind fun x =>
          (load vars j).bind fun y => some (acc ++ [BoolAST.not (BoolAST.eq x y)])
      else some acc)
      acc)
    asserted

/-- Lines 45-86: everything `Assign` has asserted when it reaches `s.Check()`,
oldest first; `none` when it panics before. `hourList` starts as 31 nil
entries (line 59). -/
def assertedConstraints (s : Schedule) : Option (List BoolAST) :=
  (declareVars s).bind fun vars =>
    (s.People.foldlM (assertAvailability vars s.PerPersonHours.toNat)
      { hourList := List.replicate 31 none, v := 0, asserted := [] }).bind fun st =>
      assertDistinct vars st.asserted

/-- How a call of `Assign` ends: with a panic, or returning an `error` value
(`none` is `nil`, `some msg` is `errors.New(msg)`). -/
inductive Outcome where
  | panic
  | returned (err : Option String)
  deriving DecidableEq

/-- `Schedule.Assign` with the solver's `Check` as a parameter (lines 88-94):
`"not sat"` when the verdict is `z3.False`, `nil` for any other verdict. -/
def Assign (check : List BoolAST → LBool) (s : Schedule) : Outcome :=
  match assertedConstraints s with
  | none => Outcome.panic
  | some cs =>
    if check cs = LBool.False then Outcome.returned (some "not sat")
    else Outcome.returned none

/-! ## The encoding as lists

The same constraints written without buffers and counters; `assertedConstraints_eq`
proves that the loops above produce exactly these. -/

/-- The slot codes of a person in the order the loop of lines 63-68 writes them. -/
def slotCodes (person : Person) : List Int :=
  weekdays.flatMap fun dayno => (person.Hours dayno).map (encode dayno.val)

/-- The duty variables in the order of `vars`. -/
def dutyVars (s : Schedule) : List IntAST :=
  s.People.flatMap fun person =>
    (List.range s.PerPersonHours.toNat).map fun i => IntAST.const (varName person i)

/-- The term `False.Or(x = c0).Or(x = c1)...` built by the loop of lines 70-73. -/
def disjunction (x : IntAST) (codes : List Int) : BoolAST :=
  codes.foldl (fun acc c => BoolAST.or acc (BoolAST.eq x (IntAST.int c))) BoolAST.cfalse

/-- The availability constraints of one person, one for each of the `k` variables. -/
def availability (k : Nat) (person : Person) : List BoolAST :=
  (List.range k).map fun i => disjunction (IntAST.const (varName person i)) (slotCodes person)

/-- The disequality asserted for the ordered pair of positions `(i, j)` of `xs`:
none when `i = j`. -/
def disequality (xs : List IntAST) (i j : Nat) : List BoolAST :=
  if i ≠ j then
    match xs[i]?, xs[j]? with
    | some x, some y => [BoolAST.not (BoolAST.eq x y)]
    | _, _ => []
  else []

/-- The disequalities of all ordered pairs of different positions, in the order
of lines 80-86. -/
def disequalities (xs : List IntAST) : List BoolAST :=
  (List.range xs.length).flatMap fun i =>
    (List.range xs.length).flatMap fun j => disequality xs i j

/-- Sequential writes `buf[n] = x; n++` of a list of terms. -/
def writeAll (st : Slice × Nat) (xs : List IntAST) : Option (Slice × Nat) :=
  xs.foldlM (fun (st : Slice × Nat) x =>
    (store st.1 st.2 x).map fun buf => (buf, st.2 + 1)) st

/-- All constraints in list form: the availability constraints person by person,
then the disequalities. -/
def constraintList (s : Schedule) : List BoolAST :=
  s.People.flatMap (availability s.PerPersonHours.toNat) ++ disequalities (dutyVars s)

/-- The encoding runs through: the length given to `make` is not negative and no
person lists more than 31 hours (the length of `hourList`). -/
def Completes (s : Schedule) : Prop :=
  ¬ ((s.People.length : Int) * s.PerPersonHours < 0) ∧
    ∀ person ∈ s.People, (slotCodes person).length ≤ 31

instance (s : Schedule) : Decidable (Completes s) :=
  inferInstanceAs (Decidable (_ ∧ _))

/-- The duty variables of one person, in the order of their positions in `vars`. -/
def personVars (k : Nat) (person : Person) : List IntAST :=
  (List.range k).map fun i => IntAST.const (varName person i)

/-- The constraints on the duty variables of one person alone: the person's
availability disjunctions and the disequalities among the person's variables. -/
def ownConstraints (k : Nat) (person : Person) : List BoolAST :=
  availability k person ++ disequalities (personVars k person)

/-- The number a list of decimal digit characters stands for. -/
def digitsValue (cs : List Char) : Nat :=
  cs.foldl (fun acc c => 10 * acc + (c.toNat - 48)) 0

/-- `Assign` reaches `s.Check()` with constraints that have a model. -/
def Feasible (s : Schedule) : Prop :=
  ∃ cs, assertedConstraints s = some cs ∧ ∃ m : String → Int, Satisfies m cs

/-- Modelled from the spec: the inverse of the slot encoding, which the spec's
Assignment Extractor needs (day index `c / 100 - 1`, hour `c mod 100`). sched.go
has no decoder: it prints the solver's model. -/
def decode (c : Int) : Int × Int := (c / 100 - 1, c % 100)

/-- The number of hour entries in the five day lists of a person, repetitions
counted. -/
def hourCount (person : Person) : Nat :=
  (weekdays.map fun dayno => (person.Hours dayno).length).sum

/-- The model `m` satisfies what `Assign` has asserted when it reaches
`s.Check()`. -/
def IsModel (m : String → Int) (s : Schedule) : Prop :=
  ∃ cs, assertedConstraints s = some cs ∧ Satisfies m cs

/-- The same person up to the order of the hours inside each day list. -/
def SamePerson (P Q : Person) : Prop :=
  P.Name = Q.Name ∧ ∀ d : Fin 5, (P.Hours d).Perm (Q.Hours d)

/-- The schedule `t` is `s` with the list of people reordered and the hours
inside day lists reordered. -/
def Reordered (s t : Schedule) : Prop :=
  s.PerPersonHours = t.PerPersonHours ∧
    ∃ mid : List Person, s.People.Perm mid ∧ List.Forall₂ SamePerson mid t.People

/-- The person `Q` has the name of `P` and lists, day by day, every hour `P`
lists. -/
def ListsMore (P Q : Person) : Prop :=
  P.Name = Q.Name ∧ ∀ d : Fin 5, ∀ h ∈ P.Hours d, h ∈ Q.Hours d

/-- The schedule `t` has the people of `s`, in the same order and with the same
`PerPersonHours`, each listing at least the hours listed in `s`. -/
def MoreAvailable (s t : Schedule) : Prop :=
  s.PerPersonHours = t.PerPersonHours ∧ List.Forall₂ ListsMore s.People t.People

/-! ## Example schedules -/

/-- One person who is free monday at 9 and 10 and fills two hours. -/
def scenarioA : Schedule :=
  { People := [{ Name := "a", Hours := mkHours [9, 10] [] [] [] [] }], PerPersonHours := 2 }

/-- A model of `scenarioA`. -/
def modelA : String → Int := fun symbol => if symbol = "a_0" then 109 else 110

/-- Two people, two hours each; both are free monday at 9. -/
def scenarioPair : Schedule :=
  { People := [{ Name := "a", Hours := mkHours [9, 10] [] [] [] [] },
               { Name := "b", Hours := mkHours [9, 11] [] [] [] [4] }],
    PerPersonHours := 2 }

/-- A model of `scenarioPair`. -/
def modelPair : String → Int := fun symbol =>
  if symbol = "a_0" then 109
  else if symbol = "a_1" then 110
  else if symbol = "b_0" then 111
  else 504

/-- Scenario B: one person, free monday at 9 and 10, who is to fill three hours. -/
def scenarioB : Schedule :=
  { People := [{ Name := "a", Hours := mkHours [9, 10] [] [] [] [] }], PerPersonHours := 3 }

/-- Scenario C: two people who fill one hour each and are both free only monday
at 9. -/
def scenarioC : Schedule :=
  { People := [{ Name := "a", Hours := mkHours [9] [] [] [] [] },
               { Name := "b", Hours := mkHours [9] [] [] [] [] }],
    PerPersonHours := 1 }

/-- One person who fills one hour and lists monday 9 thirty-two times. -/
def scenarioCrowded : Schedule :=
  { People := [{ Name := "a", Hours := mkHours (List.replicate 32 9) [] [] [] [] }],
    PerPersonHours := 1 }

/-- The configuration embedded in `main` (lines 98-116), as `json.Unmarshal`
reads it. -/
def mainSchedule : Schedule :=
  { People :=
      [{ Name := "Harrison",
         Hours := mkHours [10, 12, 1, 2, 3, 4] [9, 10, 4] [10, 12, 1, 2, 3, 4] [9, 10, 4]
           [10, 11, 12, 1, 2, 3, 4] },
       { Name := "Karl", Hours := mkHours [4] [3, 4] [4] [3, 4] [11, 12, 4] },
       { Name := "Anisa", Hours := mkHours [] [12, 1] [12, 1] [12, 1] [] }],
    PerPersonHours := 2 }

/-- A model of the constraints of `mainSchedule`. -/
def mainModel : String → Int := fun symbol =>
  if symbol = "Harrison_0" then 110
  else if symbol = "Harrison_1" then 112
  else if symbol = "Karl_0" then 104
  else if symbol = "Karl_1" then 203
  else if symbol = "Anisa_0" then 212
  else 201

/-- A solver that always answers `Undef`. -/
def undecided : List BoolAST → LBool := fun _ => LBool.Undef

/-- A solver that always answers `True`. -/
def satisfied : List BoolAST → LBool := fun _ => LBool.True

/-- A solver that always answers `False`. -/
def refuted : List BoolAST → LBool := fun _ => LBool.False

/-- Two people with the same name who fill no hour. -/
def scenarioTwinsIdle : Schedule :=
  { People := [{ Name := "a", Hours := mkHours [9] [] [] [] [] },
               { Name := "a", Hours := mkHours [10] [] [] [] [] }],
    PerPersonHours := 0 }

/-- Two people with the same name who fill one hour each. -/
def scenarioTwins : Schedule :=
  { People := [{ Name := "a", Hours := mkHours [9] [] [] [] [] },
               { Name := "a", Hours := mkHours [10] [] [] [] [] }],
    PerPersonHours := 1 }

/-- The person called `name` whose only listed hour is `hour` on day `dayno`. -/
def soloPerson (name : String) (dayno : Fin 5) (hour : Int) : Person :=
  { Name := name, Hours := fun d => if d = dayno then [hour] else [] }

/-- The schedule of `soloPerson` alone with one duty hour. -/
def soloSchedule (name : String) (dayno : Fin 5) (hour : Int) : Schedule :=
  { People := [soloPerson name dayno hour], PerPersonHours := 1 }

/-- The schedule `scenarioPair` with the two people swapped and the hours of
monday swapped. -/
def scenarioPairSwapped : Schedule :=
  { People := [{ Name := "b", Hours := mkHours [11, 9] [] [] [] [4] },
               { Name := "a", Hours := mkHours [10, 9] [] [] [] [] }],
    PerPersonHours := 2 }

/-- One person who is free monday at 9 and fills one hour. -/
def scenarioOne : Schedule :=
  { People := [{ Name := "a", Hours := mkHours [9] [] [] [] [] }], PerPersonHours := 1 }

/-- The person of `scenarioOne` with thirty-two different hours listed monday,
9 among them. -/
def scenarioOneMore : Schedule :=
  { People :=
      [{ Name := "a",
         Hours := mkHours
           [1, 2, 3, 4, 5, 6, 7, 8, 9, 10, 11, 12, 13, 14, 15, 16, 17, 18, 19, 20, 21, 22, 23,
             24, 25, 26, 27, 28, 29, 30, 31, 32]
           [] [] [] [] }],
    PerPersonHours := 1 }

/-- The person of `scenarioA` with one more hour monday and one tuesday. -/
def scenarioAMore : Schedule :=
  { People := [{ Name := "a", Hours := mkHours [11, 9, 10] [3] [] [] [] }],
    PerPersonHours := 2 }

end Sched

/-! ## The loops produce the list form -/

namespace Sched

theorem foldlM_flatMap_option {α β γ : Type} (f : γ → β → Option γ) (g : α → List β)
    (l : List α) (init : γ) :
    (l.flatMap g).foldlM f init = l.foldlM (fun st a => (g a).foldlM f st) init := by
  induction l generalizing init with
  | nil => rfl
  | cons a l ih =>
    simp only [List.flatMap_cons, List.foldlM_append, List.foldlM_cons]
    cases h : (g a).foldlM f init with
    | none => rfl
    | some st => simpa using ih st

theorem writeAll_spec (xs : List IntAST) : ∀ (pre rest : Slice),
    writeAll (pre ++ rest, pre.length) xs =
      if xs.length ≤ rest.length then
        some (pre ++ xs.map some ++ rest.drop xs.length, pre.length + xs.length)
      else none := by
  induction xs with
  | nil => intro pre rest; simp [writeAll]
  | cons x xs ih =>
    intro pre rest
    cases rest with
    | nil => simp [writeAll, store]
    | cons r rest =>
      have hstore : store (pre ++ r :: rest) pre.length x = some ((pre ++ [some x]) ++ rest) := by
        simp [store]
      have := ih (pre ++ [some x]) rest
      simp only [writeAll, List.foldlM_cons] at this ⊢
      rw [hstore]
      simp only [Option.map_some', Option.bind_eq_bind, Option.some_bind]
      have hlen : (pre ++ [some x]).length = pre.length + 1 := by simp
      rw [hlen] at this
      rw [this]
      by_cases hle : xs.length ≤ rest.length
      · simp [hle, Nat.add_assoc, Nat.add_comm 1]
      · simp [hle]

theorem declareVars_loop (s : Schedule) (st : Slice × Nat) :
    s.People.foldlM (fun st person =>
      (List.range s.PerPersonHours.toNat).foldlM (fun (st : Slice × Nat) i =>
        (store st.1 st.2 (IntAST.const (varName person i))).map fun vars => (vars, st.2 + 1))
        st) st = writeAll st (dutyVars s) := by
  unfold writeAll dutyVars
  rw [foldlM_flatMap_option]
  congr 1
  funext st person
  rw [List.foldlM_map]

theorem fillHourList_eq (person : Person) (hourList : Slice) :
    fillHourList person hourList =
      writeAll (hourList, 0) ((slotCodes person).map IntAST.int) := by
  unfold fillHourList writeAll slotCodes
  rw [List.foldlM_map, foldlM_flatMap_option]
  congr 1
  funext st dayno
  rw [List.foldlM_map]

theorem length_dutyVars_aux (k : Nat) (people : List Person) :
    (people.flatMap fun person =>
      (List.range k).map fun i => IntAST.const (varName person i)).length
      = people.length * k := by
  induction people with
  | nil => simp
  | cons p ps ih => simp [List.flatMap_cons, ih, Nat.succ_mul, Nat.add_comm]

theorem length_dutyVars (s : Schedule) :
    (dutyVars s).length = s.People.length * s.PerPersonHours.toNat :=
  length_dutyVars_aux _ _

theorem toNat_mul_of_nonneg (n : Nat) (k : Int) (h : ¬ (n : Int) * k < 0) :
    ((n : Int) * k).toNat = n * k.toNat := by
  rcases Nat.eq_zero_or_pos n with hn | hn
  · subst hn; simp
  · have hk : 0 ≤ k := by
      by_contra hk
      have hk' : k < 0 := not_le.mp hk
      have hn' : (0 : Int) < n := by exact_mod_cast hn
      exact h (Int.mul_neg_of_pos_of_neg hn' hk')
    obtain ⟨m, rfl⟩ := Int.eq_ofNat_of_zero_le hk
    simp only [Int.toNat_natCast]
    exact_mod_cast Int.toNat_natCast (n * m)

theorem declareVars_eq (s : Schedule) :
    declareVars s =
      if (s.People.length : Int) * s.PerPersonHours < 0 then none
      else some ((dutyVars s).map some) := by
  unfold declareVars
  split
  · rfl
  · rename_i h
    rw [declareVars_loop]
    have := writeAll_spec (dutyVars s) []
      (List.replicate ((s.People.length : Int) * s.PerPersonHours).toNat none)
    simp only [List.nil_append, List.length_nil, List.length_replicate] at this
    rw [this, toNat_mul_of_nonneg _ _ h, length_dutyVars]
    simp [length_dutyVars]

theorem load_map_some (xs : List IntAST) (i : Nat) : load (xs.map some) i = xs[i]? := by
  unfold load
  rw [List.getElem?_map]
  cases xs[i]? <;> rfl

theorem disjunction_append (x : IntAST) (codes : List Int) (c : Int) :
    disjunction x (codes ++ [c]) = BoolAST.or (disjunction x codes) (BoolAST.eq x (IntAST.int c)) := by
  simp [disjunction, List.foldl_append]

theorem openHours_eq (vars : Slice) (v : Nat) (x : IntAST) (hx : load vars v = some x)
    (codes : List Int) :
    ∀ tail : Slice,
      openHours vars ((codes.map IntAST.int).map some ++ tail) v codes.length
        = some (disjunction x codes) := by
  induction codes using List.reverseRecOn with
  | nil => intro tail; simp [openHours, disjunction]
  | append_singleton codes c ih =>
    intro tail
    have ih' := ih (some (IntAST.int c) :: tail)
    unfold openHours at ih' ⊢
    have hbuf : (List.map some (List.map IntAST.int (codes ++ [c])) ++ tail)
        = (List.map some (List.map IntAST.int codes)) ++ some (IntAST.int c) :: tail := by
      simp
    rw [hbuf, List.length_append, List.length_singleton, List.range_succ, List.foldlM_append, ih']
    have hload : load (List.map some (List.map IntAST.int codes) ++ some (IntAST.int c) :: tail)
        codes.length = some (IntAST.int c) := by
      unfold load
      rw [List.getElem?_append_right (by simp)]
      simp
    simp only [List.map_map] at hload
    simp [hx, hload, disjunction_append]

theorem availabilityLoop_eq (vars hl : Slice) (h v0 : Nat) (c : Nat → BoolAST) (k : Nat)
    (hc : ∀ i < k, openHours vars hl (v0 + i) h = some (c i)) (acc : List BoolAST) :
    (List.range k).foldlM (fun (st : EncState) _ =>
      (openHours vars st.hourList st.v h).map fun c =>
        { st with v := st.v + 1, asserted := st.asserted ++ [c] })
      { hourList := hl, v := v0, asserted := acc }
      = some { hourList := hl, v := v0 + k, asserted := acc ++ (List.range k).map c } := by
  induction k with
  | zero => simp
  | succ k ih =>
    have ih' := ih fun i hi => hc i (Nat.lt_succ_of_lt hi)
    rw [List.range_succ, List.foldlM_append, ih']
    simp [hc k (Nat.lt_succ_self k), Nat.add_assoc]

theorem assertAvailability_eq (vars : Slice) (k : Nat) (st : EncState) (person : Person)
    (hlen : st.hourList.length = 31)
    (hvars : ∀ i < k, load vars (st.v + i) = some (IntAST.const (varName person i))) :
    assertAvailability vars k st person =
      if (slotCodes person).length ≤ 31 then
        some { hourList := ((slotCodes person).map IntAST.int).map some
                 ++ st.hourList.drop (slotCodes person).length,
               v := st.v + k,
               asserted := st.asserted ++ availability k person }
      else none := by
  unfold assertAvailability
  rw [fillHourList_eq]
  have hw := writeAll_spec ((slotCodes person).map IntAST.int) [] st.hourList
  simp only [List.nil_append, List.length_nil, List.length_map, hlen, Nat.zero_add] at hw
  rw [hw]
  by_cases hle : (slotCodes person).length ≤ 31
  · simp only [hle, if_true, Option.some_bind]
    exact availabilityLoop_eq vars _ _ st.v
      (fun i => disjunction (IntAST.const (varName person i)) (slotCodes person)) k
      (fun i hi => openHours_eq vars (st.v + i) _ (hvars i hi) (slotCodes person) _) st.asserted
  · simp [hle]

theorem availabilityPeople_eq (vars : Slice) (k : Nat) :
    ∀ (rest : List Person) (st : EncState), st.hourList.length = 31 →
      (∀ (j : Nat) (p : Person), rest[j]? = some p → ∀ i < k,
        load vars (st.v + j * k + i) = some (IntAST.const (varName p i))) →
      ((∀ p ∈ rest, (slotCodes p).length ≤ 31) →
        ∃ hl : Slice, hl.length = 31 ∧
          rest.foldlM (assertAvailability vars k) st
            = some { hourList := hl, v := st.v + rest.length * k,
                     asserted := st.asserted ++ rest.flatMap (availability k) }) ∧
      ((∃ p ∈ rest, 31 < (slotCodes p).length) →
        rest.foldlM (assertAvailability vars k) st = none) := by
  intro rest
  induction rest with
  | nil =>
    intro st hlen _
    refine ⟨fun _ => ⟨st.hourList, hlen, ?_⟩, ?_⟩
    · simp
    · rintro ⟨p, hp, _⟩; simp at hp
  | cons q rest ih =>
    intro st hlen hvars
    have hq := assertAvailability_eq vars k st q hlen (fun i hi => by
      have := hvars 0 q (by simp) i hi
      simpa using this)
    rw [List.foldlM_cons, hq]
    by_cases hle : (slotCodes q).length ≤ 31
    · simp only [hle, if_true, Option.bind_eq_bind, Option.some_bind]
      have hlen' : (((slotCodes q).map IntAST.int).map some
          ++ st.hourList.drop (slotCodes q).length).length = 31 := by
        simp [hlen]; omega
      have := ih { hourList := ((slotCodes q).map IntAST.int).map some
                      ++ st.hourList.drop (slotCodes q).length,
                   v := st.v + k, asserted := st.asserted ++ availability k q } hlen'
        (fun j p hj i hi => by
          have := hvars (j + 1) p (by simpa using hj) i hi
          simp only [Nat.succ_mul] at this
          rw [← this]
          show load vars (st.v + k + j * k + i) = _
          congr 1
          omega)
      obtain ⟨hok, hbad⟩ := this
      constructor
      · intro hall
        obtain ⟨hl, hhl, heq⟩ := hok fun p hp => hall p (List.mem_cons_of_mem _ hp)
        refine ⟨hl, hhl, ?_⟩
        rw [heq]
        simp [List.flatMap_cons, Nat.succ_mul, Nat.add_assoc, Nat.add_comm k]
      · rintro ⟨p, hp, hgt⟩
        rcases List.mem_cons.mp hp with rfl | hp
        · omega
        · exact hbad ⟨p, hp, hgt⟩
    · simp only [hle, if_false, Option.bind_eq_bind, Option.none_bind]
      constructor
      · intro hall
        exact absurd (hall q (List.mem_cons_self _ _)) hle
      · intro _; trivial

theorem getElem?_dutyVars_aux (k : Nat) :
    ∀ (people : List Person) (j : Nat) (p : Person) (i : Nat),
      people[j]? = some p → i < k →
      (people.flatMap fun person =>
        (List.range k).map fun i => IntAST.const (varName person i))[j * k + i]?
        = some (IntAST.const (varName p i)) := by
  intro people
  induction people with
  | nil => intro j p i hj; simp at hj
  | cons q rest ih =>
    intro j p i hj hi
    rw [List.flatMap_cons]
    cases j with
    | zero =>
      simp only [List.getElem?_cons_zero, Option.some.injEq] at hj
      subst hj
      rw [List.getElem?_append_left (by simpa using hi)]
      simp [hi, List.getElem?_range]
    | succ j =>
      simp only [List.getElem?_cons_succ] at hj
      rw [List.getElem?_append_right (by simp [Nat.succ_mul]; omega)]
      have : (j + 1) * k + i
          - (List.map (fun i => IntAST.const (varName q i)) (List.range k)).length
          = j * k + i := by
        simp [Nat.succ_mul]; omega
      rw [this]
      exact ih j p i hj hi

theorem getElem?_dutyVars (s : Schedule) (j : Nat) (p : Person) (i : Nat)
    (hj : s.People[j]? = some p) (hi : i < s.PerPersonHours.toNat) :
    (dutyVars s)[j * s.PerPersonHours.toNat + i]? = some (IntAST.const (varName p i)) :=
  getElem?_dutyVars_aux _ _ j p i hj hi

theorem foldlM_collect {α β : Type} (l : List α) (f : List β → α → Option (List β))
    (g : α → List β) (h : ∀ a ∈ l, ∀ acc, f acc a = some (acc ++ g a)) :
    ∀ acc, l.foldlM f acc = some (acc ++ l.flatMap g) := by
  induction l with
  | nil => intro acc; simp
  | cons a l ih =>
    intro acc
    rw [List.foldlM_cons, h a (List.mem_cons_self _ _) acc]
    simp only [Option.bind_eq_bind, Option.some_bind]
    rw [ih fun b hb => h b (List.mem_cons_of_mem _ hb)]
    simp [List.flatMap_cons]

theorem assertDistinct_eq (xs : List IntAST) (acc : List BoolAST) :
    assertDistinct (xs.map some) acc = some (acc ++ disequalities xs) := by
  unfold assertDistinct disequalities
  simp only [List.length_map]
  apply foldlM_collect
  intro i hi acc
  apply foldlM_collect
  intro j hj acc
  have hi' : i < xs.length := List.mem_range.mp hi
  have hj' : j < xs.length := List.mem_range.mp hj
  unfold disequality
  by_cases hij : i = j
  · simp [hij]
  · simp only [ne_eq, hij, not_false_eq_true, if_true, load_map_some,
      List.getElem?_eq_getElem hi', List.getElem?_eq_getElem hj', Option.some_bind]

/-- The loops of `Assign` assert exactly `constraintList`, and they run through
exactly when `Completes` holds. -/
theorem assertedConstraints_eq (s : Schedule) :
    assertedConstraints s = if Completes s then some (constraintList s) else none := by
  unfold assertedConstraints Completes
  rw [declareVars_eq]
  by_cases hneg : (s.People.length : Int) * s.PerPersonHours < 0
  · simp [hneg]
  · simp only [hneg, if_false, Option.some_bind, not_false_eq_true, true_and]
    have h := availabilityPeople_eq ((dutyVars s).map some) s.PerPersonHours.toNat s.People
      { hourList := List.replicate 31 none, v := 0, asserted := [] } (by simp)
      (fun j p hj i hi => by
        rw [load_map_some]
        simpa using getElem?_dutyVars s j p i hj hi)
    by_cases hall : ∀ person ∈ s.People, (slotCodes person).length ≤ 31
    · obtain ⟨hl, _, heq⟩ := h.1 hall
      rw [heq]
      simp only [hall, implies_true, if_true, Option.some_bind, List.nil_append]
      rw [assertDistinct_eq, if_pos hall]
      rfl
    · have : ∃ p ∈ s.People, 31 < (slotCodes p).length := by
        push_neg at hall
        exact hall
      rw [h.2 this]
      simp [hall]

/-! ## Meaning of the asserted terms -/

theorem holds_disjunction (m : String → Int) (x : IntAST) (codes : List Int) :
    holds m (disjunction x codes) = true ↔ ∃ c ∈ codes, evalInt m x = c := by
  induction codes using List.reverseRecOn with
  | nil => simp [disjunction, holds]
  | append_singleton codes c ih =>
    rw [disjunction_append]
    simp only [holds, Bool.or_eq_true, ih, decide_eq_true_eq, evalInt, List.mem_append,
      List.mem_singleton]
    constructor
    · rintro (⟨d, hd, h⟩ | h)
      · exact ⟨d, Or.inl hd, h⟩
      · exact ⟨c, Or.inr rfl, h⟩
    · rintro ⟨d, hd | hd, h⟩
      · exact Or.inl ⟨d, hd, h⟩
      · subst hd; exact Or.inr h

theorem mem_weekdays (d : Fin 5) : d ∈ weekdays := by
  revert d; decide

theorem mem_slotCodes (person : Person) (c : Int) :
    c ∈ slotCodes person ↔ ∃ d : Fin 5, ∃ h ∈ person.Hours d, c = encode d.val h := by
  unfold slotCodes
  simp only [List.mem_flatMap, List.mem_map]
  constructor
  · rintro ⟨d, _, h, hh, rfl⟩
    exact ⟨d, h, hh, rfl⟩
  · rintro ⟨d, h, hh, rfl⟩
    exact ⟨d, mem_weekdays d, h, hh, rfl⟩

theorem mem_disequalities (xs : List IntAST) (c : BoolAST) :
    c ∈ disequalities xs ↔
      ∃ (i j : Nat) (x y : IntAST), i ≠ j ∧ xs[i]? = some x ∧ xs[j]? = some y ∧
        c = BoolAST.not (BoolAST.eq x y) := by
  unfold disequalities disequality
  simp only [List.mem_flatMap, List.mem_range]
  constructor
  · rintro ⟨i, _, j, _, hc⟩
    by_cases hij : i = j
    · simp [hij] at hc
    · simp only [ne_eq, hij, not_false_eq_true, if_true] at hc
      cases hx : xs[i]? with
      | none => simp [hx] at hc
      | some x =>
        cases hy : xs[j]? with
        | none => simp [hx, hy] at hc
        | some y =>
          simp only [hx, hy, List.mem_singleton] at hc
          exact ⟨i, j, x, y, hij, hx, hy, hc⟩
  · rintro ⟨i, j, x, y, hij, hx, hy, rfl⟩
    have hi : i < xs.length := by
      by_contra h
      rw [List.getElem?_eq_none (not_lt.mp h)] at hx
      cases hx
    have hj : j < xs.length := by
      by_contra h
      rw [List.getElem?_eq_none (not_lt.mp h)] at hy
      cases hy
    refine ⟨i, hi, j, hj, ?_⟩
    simp [hij, hx, hy]

/-- A model of the asserted constraints gives every duty variable of a person one
of that person's slot codes. -/
theorem sat_available (s : Schedule) (m : String → Int)
    (hsat : Satisfies m (constraintList s)) (P : Person) (hP : P ∈ s.People) (i : Nat)
    (hi : i < s.PerPersonHours.toNat) :
    m (varName P i) ∈ slotCodes P := by
  have hmem : disjunction (IntAST.const (varName P i)) (slotCodes P) ∈ constraintList s := by
    unfold constraintList availability
    refine List.mem_append_left _ (List.mem_flatMap.mpr ⟨P, hP, ?_⟩)
    exact List.mem_map.mpr ⟨i, List.mem_range.mpr hi, rfl⟩
  obtain ⟨c, hc, hval⟩ := (holds_disjunction m _ _).mp (hsat _ hmem)
  simp only [evalInt] at hval
  rw [hval]
  exact hc

/-- A model of the asserted constraints gives different values to terms at
different positions of `vars`. -/
theorem sat_disequal (s : Schedule) (m : String → Int)
    (hsat : Satisfies m (constraintList s)) (i j : Nat) (x y : IntAST) (hij : i ≠ j)
    (hx : (dutyVars s)[i]? = some x) (hy : (dutyVars s)[j]? = some y) :
    evalInt m x ≠ evalInt m y := by
  have hmem : BoolAST.not (BoolAST.eq x y) ∈ constraintList s := by
    unfold constraintList
    exact List.mem_append_right _
      ((mem_disequalities _ _).mpr ⟨i, j, x, y, hij, hx, hy, rfl⟩)
  have := hsat _ hmem
  simpa [holds] using this

theorem constraints_of_run (s : Schedule) (cs : List BoolAST)
    (hrun : assertedConstraints s = some cs) : Completes s ∧ cs = constraintList s := by
  rw [assertedConstraints_eq] at hrun
  by_cases h : Completes s
  · rw [if_pos h] at hrun
    exact ⟨h, (Option.some.inj hrun).symm⟩
  · rw [if_neg h] at hrun
    cases hrun

theorem vars_of_run (s : Schedule) (vars : Slice) (hvars : declareVars s = some vars) :
    vars = (dutyVars s).map some := by
  rw [declareVars_eq] at hvars
  split at hvars
  · cases hvars
  · exact (Option.some.inj hvars).symm

/-! ## Validity of every model of the asserted constraints -/

/-- C1: in every model of the constraints `Assign` asserts (names pairwise
distinct, `PerPersonHours >= 0`), the `i`-th duty variable of a person `P` has the
value `(d+1)*100+h`, as line 65 computes it, for a day `d` of the five and an hour
`h` that `P` lists on day `d`. -/
theorem assigned_slot_is_available (s : Schedule) (cs : List BoolAST) (m : String → Int)
    (_hnames : (s.People.map Person.Name).Nodup) (_hk : 0 ≤ s.PerPersonHours)
    (hrun : assertedConstraints s = some cs) (hsat : Satisfies m cs)
    (P : Person) (hP : P ∈ s.People) (i : Nat) (hi : (i : Int) < s.PerPersonHours) :
    ∃ d : Fin 5, ∃ h ∈ P.Hours d, m (varName P i) = encode d.val h := by
  obtain ⟨_, rfl⟩ := constraints_of_run s cs hrun
  exact (mem_slotCodes P _).mp (sat_available s m hsat P hP i (Int.lt_toNat.mpr hi))

theorem assigned_slot_is_available_witness :
    assertedConstraints scenarioPair = some (constraintList scenarioPair) ∧
      Satisfies modelPair (constraintList scenarioPair) ∧
      ∃ d : Fin 5, ∃ h ∈ mkHours [9, 11] [] [] [] [4] d,
        modelPair (varName { Name := "b", Hours := mkHours [9, 11] [] [] [] [4] } 1)
          = encode d.val h :=
  ⟨by decide, by decide,
    assigned_slot_is_available scenarioPair (constraintList scenarioPair) modelPair
      (by decide) (by decide) (by decide) (by decide)
      { Name := "b", Hours := mkHours [9, 11] [] [] [] [4] } (by simp [scenarioPair]) 1
      (by decide)⟩

/-- C2: in every model of the constraints `Assign` asserts (names pairwise
distinct), the variables at two different positions of `vars` have different
values, whether they belong to two people or to one. -/
theorem duty_values_pairwise_distinct (s : Schedule) (vars : Slice) (cs : List BoolAST)
    (m : String → Int) (_hnames : (s.People.map Person.Name).Nodup)
    (hvars : declareVars s = some vars) (hrun : assertedConstraints s = some cs)
    (hsat : Satisfies m cs) (i j : Nat) (x y : IntAST) (hij : i ≠ j)
    (hx : load vars i = some x) (hy : load vars j = some y) :
    evalInt m x ≠ evalInt m y := by
  obtain ⟨_, rfl⟩ := constraints_of_run s cs hrun
  rw [vars_of_run s vars hvars, load_map_some] at hx hy
  exact sat_disequal s m hsat i j x y hij hx hy

theorem duty_values_pairwise_distinct_witness :
    declareVars scenarioPair = some ((dutyVars scenarioPair).map some) ∧
      Satisfies modelPair (constraintList scenarioPair) ∧
      evalInt modelPair (IntAST.const "a_1") ≠ evalInt modelPair (IntAST.const "b_0") ∧
      evalInt modelPair (IntAST.const "b_0") ≠ evalInt modelPair (IntAST.const "b_1") :=
  ⟨by decide, by decide,
    duty_values_pairwise_distinct scenarioPair ((dutyVars scenarioPair).map some)
      (constraintList scenarioPair) modelPair (by decide) (by decide) (by decide)
      (by decide) 1 2 _ _ (by decide) (by decide) (by decide),
    duty_values_pairwise_distinct scenarioPair ((dutyVars scenarioPair).map some)
      (constraintList scenarioPair) modelPair (by decide) (by decide) (by decide)
      (by decide) 2 3 _ _ (by decide) (by decide) (by decide)⟩

/-- The values of the `k` duty variables of a person in a model: pairwise
different. -/
theorem person_values_injOn (s : Schedule) (m : String → Int)
    (hsat : Satisfies m (constraintList s)) (P : Person) (hP : P ∈ s.People) :
    Set.InjOn (fun i => m (varName P i)) (Finset.range s.PerPersonHours.toNat : Set Nat) := by
  obtain ⟨a, ha⟩ := List.mem_iff_getElem?.mp hP
  intro i hi j hj hval
  have hi' : i < s.PerPersonHours.toNat := Finset.mem_range.mp hi
  have hj' : j < s.PerPersonHours.toNat := Finset.mem_range.mp hj
  by_contra hij
  have hne : a * s.PerPersonHours.toNat + i ≠ a * s.PerPersonHours.toNat + j := by omega
  exact sat_disequal s m hsat _ _ _ _ hne (getElem?_dutyVars s a P i ha hi')
    (getElem?_dutyVars s a P j ha hj') hval

/-- C3: in every model of the constraints `Assign` asserts (names pairwise
distinct, `PerPersonHours = k >= 0`), the values of the duty variables of any one
person form a set of exactly `k` elements. -/
theorem person_gets_exactly_k_slots (s : Schedule) (cs : List BoolAST) (m : String → Int)
    (_hnames : (s.People.map Person.Name).Nodup) (hk : 0 ≤ s.PerPersonHours)
    (hrun : assertedConstraints s = some cs) (hsat : Satisfies m cs)
    (P : Person) (hP : P ∈ s.People) :
    ((((Finset.range s.PerPersonHours.toNat).image fun i => m (varName P i)).card : Nat) : Int)
      = s.PerPersonHours := by
  obtain ⟨_, rfl⟩ := constraints_of_run s cs hrun
  rw [Finset.card_image_of_injOn (person_values_injOn s m hsat P hP), Finset.card_range]
  exact Int.toNat_of_nonneg hk

theorem person_gets_exactly_k_slots_witness :
    assertedConstraints scenarioPair = some (constraintList scenarioPair) ∧
      Satisfies modelPair (constraintList scenarioPair) ∧
      ((((Finset.range scenarioPair.PerPersonHours.toNat).image fun i =>
        modelPair (varName { Name := "b", Hours := mkHours [9, 11] [] [] [] [4] } i)).card
          : Nat) : Int) = 2 :=
  ⟨by decide, by decide,
    person_gets_exactly_k_slots scenarioPair (constraintList scenarioPair) modelPair
      (by decide) (by decide) (by decide) (by decide)
      { Name := "b", Hours := mkHours [9, 11] [] [] [] [4] } (by simp [scenarioPair])⟩

/-- A model that gives every duty variable one of its person's slot codes and
different values to different positions satisfies the whole constraint list. -/
theorem satisfies_constraintList (s : Schedule) (m : String → Int)
    (havail : ∀ P ∈ s.People, ∀ i : Nat, i < s.PerPersonHours.toNat →
      m (varName P i) ∈ slotCodes P)
    (hdist : ∀ (i j : Nat) (x y : IntAST), i ≠ j → (dutyVars s)[i]? = some x →
      (dutyVars s)[j]? = some y → evalInt m x ≠ evalInt m y) :
    Satisfies m (constraintList s) := by
  intro c hc
  unfold constraintList at hc
  rcases List.mem_append.mp hc with hc | hc
  · obtain ⟨P, hP, hc⟩ := List.mem_flatMap.mp hc
    obtain ⟨i, hi, rfl⟩ := List.mem_map.mp hc
    exact (holds_disjunction m _ _).mpr
      ⟨m (varName P i), havail P hP i (List.mem_range.mp hi), rfl⟩
  · obtain ⟨i, j, x, y, hij, hx, hy, rfl⟩ := (mem_disequalities _ _).mp hc
    have := hdist i j x y hij hx hy
    simpa [holds] using this

/-- C4: a model in which every duty variable of every person `P` has the value
`(d+1)*100+h` (as line 65 computes it) for an hour `h` that `P` lists on day `d`,
and in which the variables at different positions of `vars` have different
values, satisfies every constraint `Assign` asserts (names pairwise distinct). -/
theorem valid_assignment_satisfies (s : Schedule) (vars : Slice) (cs : List BoolAST)
    (m : String → Int) (_hnames : (s.People.map Person.Name).Nodup)
    (hvars : declareVars s = some vars) (hrun : assertedConstraints s = some cs)
    (havail : ∀ P ∈ s.People, ∀ i : Nat, (i : Int) < s.PerPersonHours →
      ∃ d : Fin 5, ∃ h ∈ P.Hours d, m (varName P i) = encode d.val h)
    (hdist : ∀ (i j : Nat) (x y : IntAST), i ≠ j → load vars i = some x →
      load vars j = some y → evalInt m x ≠ evalInt m y) :
    Satisfies m cs := by
  obtain ⟨_, rfl⟩ := constraints_of_run s cs hrun
  rw [vars_of_run s vars hvars] at hdist
  refine satisfies_constraintList s m ?_ ?_
  · intro P hP i hi
    exact (mem_slotCodes P _).mpr (havail P hP i (Int.lt_toNat.mp hi))
  · intro i j x y hij hx hy
    exact hdist i j x y hij (by rw [load_map_some]; exact hx) (by rw [load_map_some]; exact hy)

theorem valid_assignment_satisfies_witness :
    declareVars scenarioA = some ((dutyVars scenarioA).map some) ∧
      assertedConstraints scenarioA = some (constraintList scenarioA) ∧
      Satisfies modelA (constraintList scenarioA) :=
  ⟨by decide, by decide,
    valid_assignment_satisfies scenarioA ((dutyVars scenarioA).map some)
      (constraintList scenarioA) modelA (by decide) (by decide) (by decide)
      (by
        intro P hP i hi
        have hP' : P = { Name := "a", Hours := mkHours [9, 10] [] [] [] [] } := by
          simpa [scenarioA] using hP
        subst hP'
        have hi' : i < 2 := by
          have : (i : Int) < 2 := hi
          omega
        interval_cases i
        · exact ⟨0, 9, by decide, by decide⟩
        · exact ⟨0, 10, by decide, by decide⟩)
      (by
        intro i j x y hij hx hy
        have hi : i < 2 := by
          by_contra h
          have : load ((dutyVars scenarioA).map some) i = none := by
            rw [load_map_some]
            exact List.getElem?_eq_none (by
              have : (dutyVars scenarioA).length = 2 := by decide
              omega)
          rw [this] at hx
          cases hx
        have hj : j < 2 := by
          by_contra h
          have : load ((dutyVars scenarioA).map some) j = none := by
            rw [load_map_some]
            exact List.getElem?_eq_none (by
              have : (dutyVars scenarioA).length = 2 := by decide
              omega)
          rw [this] at hy
          cases hy
        interval_cases i <;> interval_cases j
        · exact absurd rfl hij
        · have hx' : x = IntAST.const "a_0" := by
            have : load ((dutyVars scenarioA).map some) 0 = some (IntAST.const "a_0") := by decide
            rw [this] at hx
            exact (Option.some.inj hx).symm
          have hy' : y = IntAST.const "a_1" := by
            have : load ((dutyVars scenarioA).map some) 1 = some (IntAST.const "a_1") := by decide
            rw [this] at hy
            exact (Option.some.inj hy).symm
          subst hx' hy'
          decide
        · have hx' : x = IntAST.const "a_1" := by
            have : load ((dutyVars scenarioA).map some) 1 = some (IntAST.const "a_1") := by decide
            rw [this] at hx
            exact (Option.some.inj hx).symm
          have hy' : y = IntAST.const "a_0" := by
            have : load ((dutyVars scenarioA).map some) 0 = some (IntAST.const "a_0") := by decide
            rw [this] at hy
            exact (Option.some.inj hy).symm
          subst hx' hy'
          decide
        · exact absurd rfl hij)⟩

/-! ## Infeasibility -/

theorem getElem?_personVars (k : Nat) (P : Person) (i : Nat) (x : IntAST)
    (hx : (personVars k P)[i]? = some x) : i < k ∧ x = IntAST.const (varName P i) := by
  unfold personVars at hx
  rw [List.getElem?_map] at hx
  by_cases hi : i < k
  · rw [List.getElem?_range hi] at hx
    exact ⟨hi, (Option.some.inj hx).symm⟩
  · rw [List.getElem?_eq_none (by simpa using hi)] at hx
    cases hx

theorem ownConstraints_asserted (s : Schedule) (P : Person) (hP : P ∈ s.People) :
    ∀ c ∈ ownConstraints s.PerPersonHours.toNat P, c ∈ constraintList s := by
  intro c hc
  unfold ownConstraints at hc
  unfold constraintList
  rcases List.mem_append.mp hc with hc | hc
  · exact List.mem_append_left _ (List.mem_flatMap.mpr ⟨P, hP, hc⟩)
  · obtain ⟨i, j, x, y, hij, hx, hy, rfl⟩ := (mem_disequalities _ _).mp hc
    obtain ⟨hi, rfl⟩ := getElem?_personVars _ P i x hx
    obtain ⟨hj, rfl⟩ := getElem?_personVars _ P j y hy
    obtain ⟨a, ha⟩ := List.mem_iff_getElem?.mp hP
    refine List.mem_append_right _ ((mem_disequalities _ _).mpr
      ⟨a * s.PerPersonHours.toNat + i, a * s.PerPersonHours.toNat + j, _, _, by omega,
        getElem?_dutyVars s a P i ha hi, getElem?_dutyVars s a P j ha hj, rfl⟩)

theorem ownConstraints_card_le (k : Nat) (P : Person) (m : String → Int)
    (hsat : Satisfies m (ownConstraints k P)) : k ≤ (slotCodes P).toFinset.card := by
  have hinj : Set.InjOn (fun i => m (varName P i)) (Finset.range k : Set Nat) := by
    intro i hi j hj hval
    have hi' : i < k := Finset.mem_range.mp hi
    have hj' : j < k := Finset.mem_range.mp hj
    by_contra hij
    have hmem : BoolAST.not (BoolAST.eq (IntAST.const (varName P i))
        (IntAST.const (varName P j))) ∈ ownConstraints k P := by
      refine List.mem_append_right _ ((mem_disequalities _ _).mpr
        ⟨i, j, _, _, hij, ?_, ?_, rfl⟩)
      · simp [personVars, List.getElem?_range hi']
      · simp [personVars, List.getElem?_range hj']
    have := hsat _ hmem
    simp only [holds, evalInt, Bool.not_eq_true', decide_eq_false_iff_not] at this
    exact this hval
  have hsub : (Finset.range k).image (fun i => m (varName P i)) ⊆ (slotCodes P).toFinset := by
    intro c hc
    obtain ⟨i, hi, rfl⟩ := Finset.mem_image.mp hc
    have hmem : disjunction (IntAST.const (varName P i)) (slotCodes P) ∈ ownConstraints k P :=
      List.mem_append_left _
        (List.mem_map.mpr ⟨i, List.mem_range.mpr (Finset.mem_range.mp hi), rfl⟩)
    obtain ⟨c, hc, hval⟩ := (holds_disjunction m _ _).mp (hsat _ hmem)
    simp only [evalInt] at hval
    rw [List.mem_toFinset, hval]
    exact hc
  calc k = (Finset.range k).card := (Finset.card_range k).symm
    _ = ((Finset.range k).image fun i => m (varName P i)).card :=
        (Finset.card_image_of_injOn hinj).symm
    _ ≤ (slotCodes P).toFinset.card := Finset.card_le_card hsub

/-- C5: when a person `P` has fewer distinct slot codes than `PerPersonHours`, the
constraints `Assign` asserts on `P`'s own variables (the availability disjunctions
of `P` and the disequalities among `P`'s variables, all of them among the
asserted constraints) have no model, whatever the other people list; and a person
without any listed hour gets the constraint `False`. -/
theorem too_few_slots_infeasible (s : Schedule) (cs : List BoolAST)
    (hrun : assertedConstraints s = some cs) (P : Person) (hP : P ∈ s.People)
    (hfew : ((slotCodes P).toFinset.card : Int) < s.PerPersonHours) :
    (∀ c ∈ ownConstraints s.PerPersonHours.toNat P, c ∈ cs) ∧
      (¬ ∃ m : String → Int, Satisfies m (ownConstraints s.PerPersonHours.toNat P)) ∧
      ((∀ d : Fin 5, P.Hours d = []) → BoolAST.cfalse ∈ cs) := by
  obtain ⟨_, rfl⟩ := constraints_of_run s cs hrun
  have hpos : 0 < s.PerPersonHours.toNat := by omega
  refine ⟨ownConstraints_asserted s P hP, ?_, ?_⟩
  · rintro ⟨m, hsat⟩
    have := ownConstraints_card_le _ P m hsat
    omega
  · intro hempty
    have hcodes : slotCodes P = [] := by
      apply List.eq_nil_iff_forall_not_mem.mpr
      intro c hc
      obtain ⟨d, h, hh, _⟩ := (mem_slotCodes P c).mp hc
      rw [hempty d] at hh
      cases hh
    apply ownConstraints_asserted s P hP
    refine List.mem_append_left _ (List.mem_map.mpr ⟨0, List.mem_range.mpr hpos, ?_⟩)
    rw [hcodes]
    rfl

theorem too_few_slots_infeasible_witness :
    assertedConstraints scenarioB = some (constraintList scenarioB) ∧
      (∀ c ∈ ownConstraints 3 { Name := "a", Hours := mkHours [9, 10] [] [] [] [] },
        c ∈ constraintList scenarioB) ∧
      ¬ ∃ m : String → Int,
        Satisfies m (ownConstraints 3 { Name := "a", Hours := mkHours [9, 10] [] [] [] [] }) :=
  have h := too_few_slots_infeasible scenarioB (constraintList scenarioB) (by decide)
    { Name := "a", Hours := mkHours [9, 10] [] [] [] [] } (by simp [scenarioB]) (by decide)
  ⟨by decide, h.1, h.2.1⟩

theorem mem_dutyVars (s : Schedule) (x : IntAST) (hx : x ∈ dutyVars s) :
    ∃ P ∈ s.People, ∃ i, i < s.PerPersonHours.toNat ∧ x = IntAST.const (varName P i) := by
  unfold dutyVars at hx
  obtain ⟨P, hP, hx⟩ := List.mem_flatMap.mp hx
  obtain ⟨i, hi, rfl⟩ := List.mem_map.mp hx
  exact ⟨P, hP, i, List.mem_range.mp hi, rfl⟩

/-- In a model of the asserted constraints the values of `vars`, listed in order,
have no repetition. -/
theorem values_nodup (s : Schedule) (m : String → Int)
    (hsat : Satisfies m (constraintList s)) : ((dutyVars s).map (evalInt m)).Nodup := by
  rw [List.nodup_iff_getElem?_ne_getElem?]
  intro i j hij hj
  rw [List.length_map] at hj
  have hi : i < (dutyVars s).length := by omega
  rw [List.getElem?_map, List.getElem?_map, List.getElem?_eq_getElem hi,
    List.getElem?_eq_getElem hj]
  simp only [Option.map_some', ne_eq, Option.some.injEq]
  exact sat_disequal s m hsat i j _ _ (by omega) (List.getElem?_eq_getElem hi)
    (List.getElem?_eq_getElem hj)

/-- C6: when the people's availability holds, all together, fewer distinct slot
codes than there are duty variables (`len(People)*PerPersonHours`), the
constraints `Assign` asserts have no model (names pairwise distinct). -/
theorem too_few_slots_overall_infeasible (s : Schedule)
    (_hnames : (s.People.map Person.Name).Nodup)
    (hfew : (((s.People.flatMap slotCodes).toFinset.card : Nat) : Int)
      < (s.People.length : Int) * s.PerPersonHours) :
    ¬ Feasible s := by
  rintro ⟨cs, hrun, m, hsat⟩
  obtain ⟨hcompl, rfl⟩ := constraints_of_run s cs hrun
  have hnodup := values_nodup s m hsat
  have hsub : ((dutyVars s).map (evalInt m)).toFinset ⊆ (s.People.flatMap slotCodes).toFinset := by
    intro c hc
    rw [List.mem_toFinset] at hc ⊢
    obtain ⟨x, hx, rfl⟩ := List.mem_map.mp hc
    obtain ⟨P, hP, i, hi, rfl⟩ := mem_dutyVars s x hx
    exact List.mem_flatMap.mpr ⟨P, hP, sat_available s m hsat P hP i hi⟩
  have hcard := Finset.card_le_card hsub
  rw [List.toFinset_card_of_nodup hnodup, List.length_map, length_dutyVars] at hcard
  have hmul := toNat_mul_of_nonneg _ _ hcompl.1
  have hnonneg : 0 ≤ (s.People.length : Int) * s.PerPersonHours := not_lt.mp hcompl.1
  have : ((s.People.length : Int) * s.PerPersonHours).toNat
      ≤ (s.People.flatMap slotCodes).toFinset.card := by
    rw [hmul]; exact hcard
  omega

theorem too_few_slots_overall_infeasible_witness :
    assertedConstraints scenarioC = some (constraintList scenarioC) ∧
      (∀ m : String → Int, Satisfies m (constraintList scenarioC) →
        m "a_0" = 109 ∧ m "b_0" = 109) ∧
      ¬ Feasible scenarioC :=
  ⟨by decide,
    fun m hsat => by
      have ha := hsat (disjunction (IntAST.const "a_0") [109]) (by decide)
      have hb := hsat (disjunction (IntAST.const "b_0") [109]) (by decide)
      simpa [disjunction, holds, evalInt] using And.intro ha hb,
    too_few_slots_overall_infeasible scenarioC (by decide) (by decide)⟩

/-! ## Variable names -/

theorem digitChar_value (d : Nat) (hd : d < 10) : (Nat.digitChar d).toNat - 48 = d := by
  interval_cases d <;> rfl

theorem toDigitsCore_acc (fuel : Nat) : ∀ (n : Nat) (ds : List Char),
    Nat.toDigitsCore 10 fuel n ds = Nat.toDigitsCore 10 fuel n [] ++ ds := by
  induction fuel with
  | zero => intro n ds; simp [Nat.toDigitsCore]
  | succ fuel ih =>
    intro n ds
    simp only [Nat.toDigitsCore]
    split
    · simp
    · rw [ih (n / 10) (Nat.digitChar (n % 10) :: ds), ih (n / 10) [Nat.digitChar (n % 10)]]
      simp

theorem digitsValue_toDigitsCore (fuel : Nat) : ∀ n : Nat, n < fuel →
    digitsValue (Nat.toDigitsCore 10 fuel n []) = n := by
  induction fuel with
  | zero => intro n hn; omega
  | succ fuel ih =>
    intro n hn
    simp only [Nat.toDigitsCore]
    split
    · have hmod : n % 10 = n := by omega
      have hv := digitChar_value (n % 10) (Nat.mod_lt _ (by decide))
      rw [hmod] at hv
      simp [digitsValue, hmod, hv]
    · rw [toDigitsCore_acc]
      have hlt : n / 10 < fuel := by omega
      have hrec := ih (n / 10) hlt
      unfold digitsValue at hrec ⊢
      rw [List.foldl_append, hrec]
      simp [digitChar_value (n % 10) (Nat.mod_lt _ (by decide))]
      omega

/-- Different counters have different decimal texts. -/
theorem Itoa_injective : Function.Injective Itoa := by
  intro a b h
  have h' : Nat.toDigits 10 a = Nat.toDigits 10 b := by
    have := congrArg String.data h
    simpa [Itoa, Nat.repr, List.asString] using this
  have ha := digitsValue_toDigitsCore (a + 1) a (Nat.lt_succ_self a)
  have hb := digitsValue_toDigitsCore (b + 1) b (Nat.lt_succ_self b)
  unfold Nat.toDigits at h'
  rw [← ha, ← hb, h']

/-- The variables of one person have different symbols. -/
theorem varName_injective (P : Person) : Function.Injective (varName P) := by
  intro i j h
  apply Itoa_injective
  have := congrArg String.data h
  simp only [varName, String.data_append, List.append_assoc] at this
  exact String.ext (List.append_cancel_left (List.append_cancel_left this))

/-! ## One person with exactly as many slots as duty hours -/

theorem dutyVars_single (s : Schedule) (P : Person) (hone : s.People = [P]) :
    dutyVars s = personVars s.PerPersonHours.toNat P := by
  simp [dutyVars, personVars, hone]

/-- A list of `k` different codes, given to the `k` variables of a person in
order, as a model. -/
theorem exists_model_of_codes (P : Person) (L : List Int) :
    ∃ m : String → Int, ∀ i (hi : i < L.length), m (varName P i) = L[i] := by
  classical
  refine ⟨fun symbol =>
    if h : ∃ i, i < L.length ∧ varName P i = symbol then L.getD (Classical.choose h) 0 else 0,
    ?_⟩
  intro i hi
  have hex : ∃ j, j < L.length ∧ varName P j = varName P i := ⟨i, hi, rfl⟩
  have hspec := Classical.choose_spec hex
  have hj : Classical.choose hex = i := varName_injective P hspec.2
  simp only [hex, dif_pos]
  rw [hj, List.getD_eq_getElem _ _ hi]

set_option maxRecDepth 4000 in
/-- C7 as stated fails: one person with one duty hour who lists monday 9
thirty-two times has exactly one distinct slot code, yet the write
`hourList[31]` is out of range, `Assign` panics before `s.Check()` and no
constraint set, satisfiable or not, reaches the solver. -/
theorem single_person_exact_slots_counterexample :
    scenarioCrowded.People
        = [{ Name := "a", Hours := mkHours (List.replicate 32 9) [] [] [] [] }] ∧
      (1 : Int) ≤ scenarioCrowded.PerPersonHours ∧
      (((slotCodes { Name := "a", Hours := mkHours (List.replicate 32 9) [] [] [] [] }).toFinset.card
        : Nat) : Int) = scenarioCrowded.PerPersonHours ∧
      assertedConstraints scenarioCrowded = none ∧
      ¬ Feasible scenarioCrowded := by
  refine ⟨rfl, by decide, by decide, by decide, ?_⟩
  rintro ⟨cs, hrun, _⟩
  have hnone : assertedConstraints scenarioCrowded = none := by decide
  rw [hnone] at hrun
  cases hrun

/-- C7, amended: for a schedule with exactly one person `P` who lists at most 31
hour entries in all, among them exactly `k = PerPersonHours >= 1` distinct slot
codes, `Assign` reaches `s.Check()` with constraints that have a model, and in
every model the set of values of `P`'s `k` variables is the set of all slot codes
of `P`. -/
theorem single_person_exact_slots (s : Schedule) (P : Person) (hone : s.People = [P])
    (hk : 1 ≤ s.PerPersonHours)
    (hslots : (((slotCodes P).toFinset.card : Nat) : Int) = s.PerPersonHours)
    (h31 : (slotCodes P).length ≤ 31) :
    ∃ cs, assertedConstraints s = some cs ∧ (∃ m : String → Int, Satisfies m cs) ∧
      ∀ m : String → Int, Satisfies m cs →
        ((Finset.range s.PerPersonHours.toNat).image fun i => m (varName P i))
          = (slotCodes P).toFinset := by
  have hcompl : Completes s := by
    constructor
    · rw [hone]
      simp only [List.length_singleton, Nat.cast_one, one_mul, not_lt]
      omega
    · intro person hperson
      rw [hone, List.mem_singleton] at hperson
      subst hperson
      exact h31
  have hP : P ∈ s.People := by rw [hone]; exact List.mem_singleton_self P
  have hcard : (slotCodes P).toFinset.card = s.PerPersonHours.toNat := by omega
  refine ⟨constraintList s, by rw [assertedConstraints_eq, if_pos hcompl], ?_, ?_⟩
  · have hlen : (slotCodes P).dedup.length = s.PerPersonHours.toNat := by
      rw [← List.card_toFinset]; exact hcard
    obtain ⟨m, hm⟩ := exists_model_of_codes P (slotCodes P).dedup
    refine ⟨m, satisfies_constraintList s m ?_ ?_⟩
    · intro Q hQ i hi
      rw [hone, List.mem_singleton] at hQ
      subst hQ
      rw [hm i (by omega)]
      exact List.mem_dedup.mp (List.getElem_mem _)
    · intro i j x y hij hx hy
      rw [dutyVars_single s P hone] at hx hy
      obtain ⟨hi, rfl⟩ := getElem?_personVars _ P i x hx
      obtain ⟨hj, rfl⟩ := getElem?_personVars _ P j y hy
      simp only [evalInt]
      rw [hm i (by omega), hm j (by omega)]
      intro heq
      exact hij ((List.nodup_dedup (slotCodes P)).getElem_inj_iff.mp heq)
  · intro m hsat
    apply Finset.eq_of_subset_of_card_le
    · intro c hc
      obtain ⟨i, hi, rfl⟩ := Finset.mem_image.mp hc
      rw [List.mem_toFinset]
      exact sat_available s m hsat P hP i (Finset.mem_range.mp hi)
    · rw [Finset.card_image_of_injOn (person_values_injOn s m hsat P hP), Finset.card_range,
        hcard]

theorem single_person_exact_slots_witness :
    (slotCodes { Name := "a", Hours := mkHours [9, 10] [] [] [] [] }).toFinset = {109, 110} ∧
      ∃ cs, assertedConstraints scenarioA = some cs ∧
        (∃ m : String → Int, Satisfies m cs) ∧
        ∀ m : String → Int, Satisfies m cs →
          ((Finset.range scenarioA.PerPersonHours.toNat).image fun i =>
            m (varName { Name := "a", Hours := mkHours [9, 10] [] [] [] [] } i))
            = (slotCodes { Name := "a", Hours := mkHours [9, 10] [] [] [] [] }).toFinset :=
  ⟨by decide,
    single_person_exact_slots scenarioA { Name := "a", Hours := mkHours [9, 10] [] [] [] [] }
      rfl (by decide) (by decide) (by decide)⟩

/-! ## The configuration of `main` -/

set_option maxRecDepth 8000 in
/-- C8: for the configuration embedded in `main` (Harrison, Karl, Anisa, two
duties each) `Assign` reaches `s.Check()` with constraints that have a model: six
pairwise different integers, two per person, each `(d+1)*100+h` for an hour `h`
the person lists on day `d`. -/
theorem main_configuration_satisfiable :
    ∃ cs, assertedConstraints mainSchedule = some cs ∧
      ∃ m : String → Int, Satisfies m cs ∧
        (dutyVars mainSchedule).length = 6 ∧
        ((dutyVars mainSchedule).map (evalInt m)).Nodup ∧
        ∀ P ∈ mainSchedule.People, ∀ i < 2, ∃ d : Fin 5, ∃ h ∈ P.Hours d,
          m (varName P i) = ((d.val : Int) + 1) * 100 + h := by
  refine ⟨constraintList mainSchedule, by decide, mainModel, by decide, by decide, by decide,
    by decide⟩

/-! ## The slot encoding -/

/-- Where `(dayno+1)*100+hour` stays inside Go's `int`, `encode` is that number. -/
theorem encode_eq_of_bounds (d : Nat) (h : Int)
    (hlo : -(2 : Int) ^ 63 ≤ ((d : Int) + 1) * 100 + h)
    (hhi : ((d : Int) + 1) * 100 + h < (2 : Int) ^ 63) :
    encode d h = ((d : Int) + 1) * 100 + h := by
  unfold encode wrapInt
  have h63 : (2 : Int) ^ 63 = 9223372036854775808 := by norm_num
  have h64 : (2 : Int) ^ 64 = 18446744073709551616 := by norm_num
  rw [h63] at hlo hhi ⊢
  rw [h64]
  omega

/-- C9: on the slot universe (day index 0..4, hour label `0 <= h < 100`) the code
of a slot is the number `(d+1)*100+h`, `decode` gives back day and hour, two slots
with the same code are the same slot, and the same hour on two different days has
two different codes. -/
theorem encode_invertible_on_universe (d : Fin 5) (h : Int) (h0 : 0 ≤ h) (h100 : h < 100) :
    encode d.val h = ((d.val : Int) + 1) * 100 + h ∧
      decode (encode d.val h) = ((d.val : Int), h) ∧
      (∀ (d2 : Fin 5) (h2 : Int), 0 ≤ h2 → h2 < 100 →
        encode d.val h = encode d2.val h2 → d = d2 ∧ h = h2) ∧
      (∀ d2 : Fin 5, d ≠ d2 → encode d.val h ≠ encode d2.val h) := by
  have hd : d.val < 5 := d.isLt
  have henc : ∀ (e : Fin 5) (g : Int), 0 ≤ g → g < 100 →
      encode e.val g = ((e.val : Int) + 1) * 100 + g := by
    intro e g hg0 hg100
    have he : e.val < 5 := e.isLt
    apply encode_eq_of_bounds <;> norm_num <;> omega
  have hinj : ∀ (d2 : Fin 5) (h2 : Int), 0 ≤ h2 → h2 < 100 →
      encode d.val h = encode d2.val h2 → d = d2 ∧ h = h2 := by
    intro d2 h2 h20 h2100 heq
    rw [henc d h h0 h100, henc d2 h2 h20 h2100] at heq
    have hd2 : d2.val < 5 := d2.isLt
    have hval : d.val = d2.val := by omega
    exact ⟨Fin.ext hval, by rw [hval] at heq; omega⟩
  refine ⟨henc d h h0 h100, ?_, hinj, ?_⟩
  · rw [henc d h h0 h100]
    unfold decode
    ext
    · simp only; omega
    · simp only; omega
  · intro d2 hne heq
    exact hne (hinj d2 h h0 h100 heq).1

theorem encode_invertible_on_universe_witness :
    encode 0 4 = 104 ∧ decode (encode 0 4) = (0, 4) ∧ encode 0 4 ≠ encode 1 4 :=
  have h := encode_invertible_on_universe 0 4 (by decide) (by decide)
  ⟨by decide, h.2.1, h.2.2.2 1 (by decide)⟩

/-! ## The result of `Assign` -/

/-- C10: when `Assign` reaches `s.Check()`, it returns the error `"not sat"`
exactly when the verdict is `z3.False`; for every other verdict, `Undef` among
them, it returns `nil`. -/
theorem assign_error_iff_unsat (check : List BoolAST → LBool) (s : Schedule)
    (cs : List BoolAST) (hrun : assertedConstraints s = some cs) :
    (Assign check s = Outcome.returned (some "not sat") ↔ check cs = LBool.False) ∧
      (check cs ≠ LBool.False → Assign check s = Outcome.returned none) ∧
      (check cs = LBool.Undef → Assign check s ≠ Outcome.returned (some "not sat")) := by
  unfold Assign
  rw [hrun]
  by_cases h : check cs = LBool.False
  · simp [h]
  · simp [h]

theorem assign_error_iff_unsat_witness :
    assertedConstraints scenarioA = some (constraintList scenarioA) ∧
      Assign undecided scenarioA = Outcome.returned none ∧
      Assign undecided scenarioA ≠ Outcome.returned (some "not sat") :=
  have h := assign_error_iff_unsat undecided scenarioA (constraintList scenarioA) (by decide)
  ⟨by decide, h.2.1 (by decide), h.2.2 rfl⟩

/-- C11 as stated fails: for `scenarioA`, whose constraints have the model
`modelA`, `Assign` returns the same result, `nil`, under the verdict `Undef` and
under the verdict `True`. -/
theorem unknown_not_distinguished_counterexample :
    assertedConstraints scenarioA = some (constraintList scenarioA) ∧
      Satisfies modelA (constraintList scenarioA) ∧
      undecided (constraintList scenarioA) = LBool.Undef ∧
      satisfied (constraintList scenarioA) = LBool.True ∧
      Assign undecided scenarioA = Assign satisfied scenarioA := by
  refine ⟨by decide, by decide, rfl, rfl, by decide⟩

/-- C11, amended: when `Assign` reaches `s.Check()`, the verdicts `Undef` and
`True` give the same result, `nil`; only the verdict `False` gives a different
one, the error `"not sat"`. -/
theorem unknown_returns_like_sat (s : Schedule) (cs : List BoolAST)
    (unknown sat unsat : List BoolAST → LBool)
    (hrun : assertedConstraints s = some cs) (hunknown : unknown cs = LBool.Undef)
    (hsat : sat cs = LBool.True) (hunsat : unsat cs = LBool.False) :
    Assign unknown s = Outcome.returned none ∧
      Assign sat s = Outcome.returned none ∧
      Assign unsat s = Outcome.returned (some "not sat") ∧
      Assign unknown s = Assign sat s ∧
      Assign unknown s ≠ Assign unsat s := by
  unfold Assign
  rw [hrun]
  simp [hunknown, hsat, hunsat]

theorem unknown_returns_like_sat_witness :
    assertedConstraints scenarioA = some (constraintList scenarioA) ∧
      Assign undecided scenarioA = Assign satisfied scenarioA ∧
      Assign undecided scenarioA ≠ Assign refuted scenarioA :=
  have h := unknown_returns_like_sat scenarioA (constraintList scenarioA) undecided satisfied
    refuted (by decide) rfl rfl rfl
  ⟨by decide, h.2.2.2.1, h.2.2.2.2⟩

/-! ## Input that the spec wants rejected -/

/-- Two people with the same name share their variables, which sit at two
positions of `vars` and are asserted unequal: no model. -/
theorem duplicate_names_no_model (s : Schedule)
    (hdup : ¬ (s.People.map Person.Name).Nodup) (hk : 1 ≤ s.PerPersonHours)
    (m : String → Int) : ¬ Satisfies m (constraintList s) := by
  intro hsat
  rw [List.nodup_iff_getElem?_ne_getElem?] at hdup
  push_neg at hdup
  obtain ⟨a, b, hab, hb, heq⟩ := hdup
  rw [List.length_map] at hb
  have ha : a < s.People.length := by omega
  rw [List.getElem?_map, List.getElem?_map, List.getElem?_eq_getElem ha,
    List.getElem?_eq_getElem hb] at heq
  simp only [Option.map_some', Option.some.injEq] at heq
  have hK : 0 < s.PerPersonHours.toNat := by omega
  have hx := getElem?_dutyVars s a _ 0 (List.getElem?_eq_getElem ha) hK
  have hy := getElem?_dutyVars s b _ 0 (List.getElem?_eq_getElem hb) hK
  have hlt : a * s.PerPersonHours.toNat < b * s.PerPersonHours.toNat :=
    Nat.mul_lt_mul_of_pos_right hab hK
  have hne := sat_disequal s m hsat _ _ _ _ (by omega) hx hy
  apply hne
  simp only [evalInt, varName, heq]

/-- C12 as stated fails: two people named `a` who fill no hour give no variable
and no constraint; the empty constraint set has a model, and under the verdict
`True` `Assign` returns `nil`. -/
theorem duplicate_names_counterexample :
    ¬ (scenarioTwinsIdle.People.map Person.Name).Nodup ∧
      assertedConstraints scenarioTwinsIdle = some [] ∧
      Satisfies (fun _ => 0) [] ∧
      Assign satisfied scenarioTwinsIdle = Outcome.returned none := by
  refine ⟨by decide, by decide, by decide, by decide⟩

/-- C12, amended: for every schedule in which two people have the same name and
`PerPersonHours >= 1`, the constraints `Assign` asserts have no model; when the
run reaches `s.Check()` and the verdict is sound and not `Undef`, `Assign` returns
the error `"not sat"`. -/
theorem duplicate_names_fail (s : Schedule) (cs : List BoolAST)
    (check : List BoolAST → LBool)
    (hdup : ¬ (s.People.map Person.Name).Nodup) (hk : 1 ≤ s.PerPersonHours)
    (hrun : assertedConstraints s = some cs)
    (hsound : check cs = LBool.True → ∃ m : String → Int, Satisfies m cs)
    (hdecided : check cs ≠ LBool.Undef) :
    (¬ ∃ m : String → Int, Satisfies m cs) ∧
      Assign check s = Outcome.returned (some "not sat") := by
  obtain ⟨_, hcs⟩ := constraints_of_run s cs hrun
  have hunsat : ¬ ∃ m : String → Int, Satisfies m cs := by
    rintro ⟨m, hm⟩
    rw [hcs] at hm
    exact duplicate_names_no_model s hdup hk m hm
  refine ⟨hunsat, ?_⟩
  have hfalse : check cs = LBool.False := by
    cases hv : check cs with
    | False => rfl
    | Undef => exact absurd hv hdecided
    | True => exact absurd (hsound hv) hunsat
  unfold Assign
  rw [hrun]
  simp [hfalse]

theorem duplicate_names_fail_witness :
    ¬ (scenarioTwins.People.map Person.Name).Nodup ∧
      assertedConstraints scenarioTwins = some (constraintList scenarioTwins) ∧
      (¬ ∃ m : String → Int, Satisfies m (constraintList scenarioTwins)) ∧
      Assign refuted scenarioTwins = Outcome.returned (some "not sat") :=
  have h := duplicate_names_fail scenarioTwins (constraintList scenarioTwins) refuted
    (by decide) (by decide) (by decide) (fun hv => by cases hv) (by decide)
  ⟨by decide, by decide, h.1, h.2⟩

theorem slotCodes_soloPerson (name : String) (dayno : Fin 5) (hour : Int) :
    slotCodes (soloPerson name dayno hour) = [encode dayno.val hour] := by
  unfold slotCodes weekdays soloPerson
  fin_cases dayno <;> simp <;> rfl

theorem constraintList_soloSchedule (name : String) (dayno : Fin 5) (hour : Int) :
    constraintList (soloSchedule name dayno hour)
      = [disjunction (IntAST.const (varName (soloPerson name dayno hour) 0))
          [encode dayno.val hour]] := by
  simp [constraintList, soloSchedule, availability, dutyVars, disequalities, disequality,
    slotCodes_soloPerson, List.range_succ]

theorem assertedConstraints_soloSchedule (name : String) (dayno : Fin 5) (hour : Int) :
    assertedConstraints (soloSchedule name dayno hour)
      = some [disjunction (IntAST.const (varName (soloPerson name dayno hour) 0))
          [encode dayno.val hour]] := by
  rw [assertedConstraints_eq, constraintList_soloSchedule]
  have hc : Completes (soloSchedule name dayno hour) := by
    constructor
    · simp [soloSchedule]
    · intro person hperson
      have hp : person = soloPerson name dayno hour := by
        simpa [soloSchedule] using hperson
      rw [hp, slotCodes_soloPerson]
      simp
  rw [if_pos hc]

/-- C14 as stated fails: with the hours 1 to 12 as universe, the one-person
schedule that lists monday 150 is not rejected. Its constraint has a model, which
assigns the code 250, the code of tuesday 50, and under the verdict `True` `Assign`
returns `nil`. -/
theorem hour_outside_universe_counterexample :
    (150 : Int) ∉ Finset.Icc (1 : Int) 12 ∧
      assertedConstraints (soloSchedule "a" 0 150)
        = some [disjunction (IntAST.const "a_0") [250]] ∧
      Satisfies (fun _ => 250) [disjunction (IntAST.const "a_0") [250]] ∧
      encode 0 150 = encode 1 50 ∧
      Assign satisfied (soloSchedule "a" 0 150) = Outcome.returned none := by
  refine ⟨by decide, by decide, by decide, by decide, by decide⟩

/-- C14, amended: `Assign` checks no hour label against a universe. For a person
who fills one hour and lists the single hour `h` on day `d`, `h` outside the
universe, the run reaches `s.Check()` with one constraint, which has a model;
every model gives the variable the code of `(d, h)`; and `Assign` returns `nil`
for every verdict other than `False`. -/
theorem hour_outside_universe_accepted (allowed : Finset Int) (name : String)
    (d : Fin 5) (h : Int) (_hout : h ∉ allowed) :
    ∃ cs, assertedConstraints (soloSchedule name d h) = some cs ∧
      (∃ m : String → Int, Satisfies m cs) ∧
      (∀ m : String → Int, Satisfies m cs →
        m (varName (soloPerson name d h) 0) = encode d.val h) ∧
      ∀ check : List BoolAST → LBool, check cs ≠ LBool.False →
        Assign check (soloSchedule name d h) = Outcome.returned none := by
  refine ⟨_, assertedConstraints_soloSchedule name d h, ?_, ?_, ?_⟩
  · refine ⟨fun _ => encode d.val h, ?_⟩
    intro c hc
    rw [List.mem_singleton] at hc
    rw [hc, holds_disjunction]
    exact ⟨encode d.val h, List.mem_singleton_self _, rfl⟩
  · intro m hsat
    have := hsat _ (List.mem_singleton_self _)
    rw [holds_disjunction] at this
    obtain ⟨c, hc, hval⟩ := this
    rw [List.mem_singleton] at hc
    rw [← hc]
    exact hval
  · intro check hcheck
    unfold Assign
    rw [assertedConstraints_soloSchedule]
    simp [hcheck]

theorem hour_outside_universe_accepted_witness :
    (-3 : Int) ∉ Finset.Icc (1 : Int) 12 ∧
      ∃ cs, assertedConstraints (soloSchedule "a" 4 (-3)) = some cs ∧
        (∃ m : String → Int, Satisfies m cs) ∧
        (∀ m : String → Int, Satisfies m cs →
          m (varName (soloPerson "a" 4 (-3)) 0) = encode 4 (-3)) ∧
        ∀ check : List BoolAST → LBool, check cs ≠ LBool.False →
          Assign check (soloSchedule "a" 4 (-3)) = Outcome.returned none :=
  ⟨by decide, hour_outside_universe_accepted (Finset.Icc 1 12) "a" 4 (-3) (by decide)⟩

/-! ## The declared variables -/

theorem length_slotCodes (person : Person) : (slotCodes person).length = hourCount person := by
  simp [slotCodes, hourCount, List.length_flatMap, Function.comp_def]

theorem isModel_iff (m : String → Int) (s : Schedule) :
    IsModel m s ↔
      Completes s ∧
        (∀ P ∈ s.People, ∀ i : Nat, i < s.PerPersonHours.toNat →
          m (varName P i) ∈ slotCodes P) ∧
        ((dutyVars s).map (evalInt m)).Nodup := by
  constructor
  · rintro ⟨cs, hrun, hsat⟩
    obtain ⟨hc, rfl⟩ := constraints_of_run s cs hrun
    exact ⟨hc, fun P hP i hi => sat_available s m hsat P hP i hi, values_nodup s m hsat⟩
  · rintro ⟨hc, havail, hnodup⟩
    refine ⟨constraintList s, by rw [assertedConstraints_eq, if_pos hc], ?_⟩
    refine satisfies_constraintList s m havail ?_
    intro i j x y hij hx hy hval
    obtain ⟨hi, hx⟩ := List.getElem?_eq_some.mp hx
    obtain ⟨hj, hy⟩ := List.getElem?_eq_some.mp hy
    apply hij
    have hi' : i < ((dutyVars s).map (evalInt m)).length := by simpa using hi
    have hj' : j < ((dutyVars s).map (evalInt m)).length := by simpa using hj
    have heq : ((dutyVars s).map (evalInt m))[i] = ((dutyVars s).map (evalInt m))[j] := by
      simp only [List.getElem_map, hx, hy, hval]
    exact hnodup.getElem_inj_iff.mp heq

theorem feasible_iff (s : Schedule) : Feasible s ↔ ∃ m : String → Int, IsModel m s := by
  constructor
  · rintro ⟨cs, hrun, m, hsat⟩
    exact ⟨m, cs, hrun, hsat⟩
  · rintro ⟨m, cs, hrun, hsat⟩
    exact ⟨cs, hrun, m, hsat⟩

theorem forall₂_ball_iff {α : Type} (R : α → α → Prop) (p : α → Prop)
    (hR : ∀ a b, R a b → (p a ↔ p b)) (l₁ l₂ : List α) (h : List.Forall₂ R l₁ l₂) :
    (∀ a ∈ l₁, p a) ↔ (∀ b ∈ l₂, p b) := by
  induction h with
  | nil => simp
  | cons hab _ ih =>
    simp only [List.forall_mem_cons, hR _ _ hab, ih]

theorem forall₂_flatMap_eq {α β : Type} (R : α → α → Prop) (f : α → List β)
    (hR : ∀ a b, R a b → f a = f b) (l₁ l₂ : List α) (h : List.Forall₂ R l₁ l₂) :
    l₁.flatMap f = l₂.flatMap f := by
  induction h with
  | nil => rfl
  | cons hab _ ih => simp only [List.flatMap_cons, hR _ _ hab, ih]

theorem varName_of_name_eq (P Q : Person) (h : P.Name = Q.Name) (i : Nat) :
    varName P i = varName Q i := by
  simp only [varName, h]

theorem slotCodes_perm (P Q : Person) (h : SamePerson P Q) :
    (slotCodes P).Perm (slotCodes Q) := by
  unfold slotCodes
  exact List.Perm.flatMap_left _ fun d _ => (h.2 d).map _

/-! ## Order of people and hours -/

theorem completes_reordered (s t : Schedule) (h : Reordered s t) :
    Completes s ↔ Completes t := by
  obtain ⟨hk, mid, hperm, hsame⟩ := h
  unfold Completes
  rw [hperm.length_eq, hsame.length_eq, hk]
  apply and_congr Iff.rfl
  rw [← forall₂_ball_iff SamePerson (fun P => (slotCodes P).length ≤ 31)
    (fun P Q hPQ => by
      show (slotCodes P).length ≤ 31 ↔ (slotCodes Q).length ≤ 31
      rw [(slotCodes_perm P Q hPQ).length_eq]) mid t.People hsame]
  constructor
  · intro hs P hP; exact hs P (hperm.mem_iff.mpr hP)
  · intro hs P hP; exact hs P (hperm.mem_iff.mp hP)

theorem isModel_reordered (m : String → Int) (s t : Schedule) (h : Reordered s t) :
    IsModel m s ↔ IsModel m t := by
  have hcompl := completes_reordered s t h
  obtain ⟨hk, mid, hperm, hsame⟩ := h
  have hball : ∀ p : Person → Prop, (∀ P Q, SamePerson P Q → (p P ↔ p Q)) →
      ((∀ P ∈ s.People, p P) ↔ (∀ Q ∈ t.People, p Q)) := by
    intro p hp
    rw [← forall₂_ball_iff SamePerson p hp mid t.People hsame]
    constructor
    · intro hs P hP; exact hs P (hperm.mem_iff.mpr hP)
    · intro hs P hP; exact hs P (hperm.mem_iff.mp hP)
  have havail :
      (∀ P ∈ s.People, ∀ i : Nat, i < s.PerPersonHours.toNat → m (varName P i) ∈ slotCodes P)
        ↔ (∀ Q ∈ t.People, ∀ i : Nat, i < t.PerPersonHours.toNat →
          m (varName Q i) ∈ slotCodes Q) := by
    rw [hk]
    apply hball (fun P => ∀ i : Nat, i < t.PerPersonHours.toNat → m (varName P i) ∈ slotCodes P)
    intro P Q hPQ
    constructor
    · intro hP i hi
      rw [← varName_of_name_eq P Q hPQ.1 i]
      exact (slotCodes_perm P Q hPQ).mem_iff.mp (hP i hi)
    · intro hQ i hi
      rw [varName_of_name_eq P Q hPQ.1 i]
      exact (slotCodes_perm P Q hPQ).mem_iff.mpr (hQ i hi)
  have hvars : (dutyVars s).Perm (dutyVars t) := by
    unfold dutyVars
    rw [hk, ← forall₂_flatMap_eq SamePerson _ (fun P Q hPQ => by
      simp only [varName_of_name_eq P Q hPQ.1]) mid t.People hsame]
    exact hperm.flatMap_right _
  rw [isModel_iff, isModel_iff, hcompl, havail, (hvars.map (evalInt m)).nodup_iff]

/-- C16: reordering the hours inside day lists and reordering the people (names
pairwise distinct) changes neither whether the encoding runs through nor the set
of models of the asserted constraints, as maps from symbols to values; so it does
not change whether they are satisfiable, nor whether `Assign` returns
`"not sat"` under a solver that answers `False` exactly for unsatisfiable
constraints. -/
theorem order_irrelevant (s t : Schedule) (_hnames : (s.People.map Person.Name).Nodup)
    (h : Reordered s t) :
    ((assertedConstraints s).isSome ↔ (assertedConstraints t).isSome) ∧
      (∀ m : String → Int, IsModel m s ↔ IsModel m t) ∧
      (Feasible s ↔ Feasible t) ∧
      ∀ (check : List BoolAST → LBool) (cs ct : List BoolAST),
        assertedConstraints s = some cs → assertedConstraints t = some ct →
        (check cs = LBool.False ↔ ¬ ∃ m : String → Int, Satisfies m cs) →
        (check ct = LBool.False ↔ ¬ ∃ m : String → Int, Satisfies m ct) →
        (Assign check s = Outcome.returned (some "not sat")
          ↔ Assign check t = Outcome.returned (some "not sat")) := by
  have hmodels : ∀ m : String → Int, IsModel m s ↔ IsModel m t :=
    fun m => isModel_reordered m s t h
  have hfeas : Feasible s ↔ Feasible t := by
    rw [feasible_iff, feasible_iff]
    exact exists_congr hmodels
  refine ⟨?_, hmodels, hfeas, ?_⟩
  · have hcompl := completes_reordered s t h
    rw [assertedConstraints_eq, assertedConstraints_eq]
    by_cases hc : Completes s
    · simp [hc, hcompl.mp hc]
    · have hc' : ¬ Completes t := fun h' => hc (hcompl.mpr h')
      simp [hc, hc']
  · intro check cs ct hs ht hvs hvt
    have hAs : Assign check s = Outcome.returned (some "not sat") ↔ check cs = LBool.False := by
      unfold Assign
      rw [hs]
      by_cases hv : check cs = LBool.False <;> simp [hv]
    have hAt : Assign check t = Outcome.returned (some "not sat") ↔ check ct = LBool.False := by
      unfold Assign
      rw [ht]
      by_cases hv : check ct = LBool.False <;> simp [hv]
    have hFs : Feasible s ↔ ∃ m : String → Int, Satisfies m cs := by
      unfold Feasible
      rw [hs]
      simp
    have hFt : Feasible t ↔ ∃ m : String → Int, Satisfies m ct := by
      unfold Feasible
      rw [ht]
      simp
    rw [hAs, hAt, hvs, hvt, ← hFs, ← hFt, hfeas]

theorem order_irrelevant_witness :
    Reordered scenarioPair scenarioPairSwapped ∧
      assertedConstraints scenarioPairSwapped = some (constraintList scenarioPairSwapped) ∧
      Satisfies modelPair (constraintList scenarioPair) ∧
      IsModel modelPair scenarioPairSwapped :=
  have hre : Reordered scenarioPair scenarioPairSwapped :=
    ⟨rfl, [{ Name := "b", Hours := mkHours [9, 11] [] [] [] [4] },
           { Name := "a", Hours := mkHours [9, 10] [] [] [] [] }],
      List.Perm.swap _ _ _,
      List.Forall₂.cons ⟨rfl, by intro d; fin_cases d <;> decide⟩
        (List.Forall₂.cons ⟨rfl, by intro d; fin_cases d <;> decide⟩ List.Forall₂.nil)⟩
  ⟨hre, by decide, by decide,
    ((order_irrelevant scenarioPair scenarioPairSwapped (by decide) hre).2.1 modelPair).mp
      ⟨constraintList scenarioPair, by decide, by decide⟩⟩

/-! ## More availability -/

theorem forall₂_exists_left {α : Type} (R : α → α → Prop) (l₁ l₂ : List α)
    (h : List.Forall₂ R l₁ l₂) : ∀ b ∈ l₂, ∃ a ∈ l₁, R a b := by
  induction h with
  | nil => intro b hb; cases hb
  | cons hab _ ih =>
    intro b hb
    rcases List.mem_cons.mp hb with rfl | hb
    · exact ⟨_, List.mem_cons_self _ _, hab⟩
    · obtain ⟨a, ha, hR⟩ := ih b hb
      exact ⟨a, List.mem_cons_of_mem _ ha, hR⟩

theorem slotCodes_subset (P Q : Person) (h : ListsMore P Q) :
    ∀ c ∈ slotCodes P, c ∈ slotCodes Q := by
  intro c hc
  obtain ⟨d, hour, hhour, rfl⟩ := (mem_slotCodes P c).mp hc
  exact (mem_slotCodes Q _).mpr ⟨d, hour, h.2 d hour hhour, rfl⟩

theorem isModel_moreAvailable (m : String → Int) (s t : Schedule) (h : MoreAvailable s t)
    (hroom : ∀ Q ∈ t.People, hourCount Q ≤ 31) (hm : IsModel m s) : IsModel m t := by
  obtain ⟨hk, hmore⟩ := h
  rw [isModel_iff] at hm ⊢
  obtain ⟨hcompl, havail, hnodup⟩ := hm
  have hvars : dutyVars s = dutyVars t := by
    unfold dutyVars
    rw [hk]
    exact forall₂_flatMap_eq ListsMore _ (fun P Q hPQ => by
      simp only [varName_of_name_eq P Q hPQ.1]) s.People t.People hmore
  refine ⟨⟨?_, ?_⟩, ?_, ?_⟩
  · rw [← hmore.length_eq, ← hk]
    exact hcompl.1
  · intro Q hQ
    rw [length_slotCodes]
    exact hroom Q hQ
  · intro Q hQ i hi
    obtain ⟨P, hP, hPQ⟩ := forall₂_exists_left ListsMore _ _ hmore Q hQ
    rw [← varName_of_name_eq P Q hPQ.1 i]
    exact slotCodes_subset P Q hPQ _ (havail P hP i (by rw [hk]; exact hi))
  · rw [← hvars]
    exact hnodup

set_option maxRecDepth 4000 in
/-- C19 as stated fails: `scenarioOne` (monday 9, one duty hour) has a model; in
`scenarioOneMore` the same person lists the hours 1 to 32 of monday, 9 among
them, and the write `hourList[31]` is out of range: `Assign` panics before
`s.Check()`, so no satisfiable constraint set comes about. -/
theorem more_availability_counterexample :
    IsModel (fun _ => 109) scenarioOne ∧
      Feasible scenarioOne ∧
      MoreAvailable scenarioOne scenarioOneMore ∧
      assertedConstraints scenarioOneMore = none ∧
      ¬ IsModel (fun _ => 109) scenarioOneMore ∧
      ¬ Feasible scenarioOneMore := by
  have hnone : assertedConstraints scenarioOneMore = none := by decide
  have hmodel : IsModel (fun _ => 109) scenarioOne :=
    ⟨constraintList scenarioOne, by decide, by decide⟩
  refine ⟨hmodel, (feasible_iff _).mpr ⟨_, hmodel⟩, ?_, hnone, ?_, ?_⟩
  · refine ⟨rfl, List.Forall₂.cons ⟨rfl, ?_⟩ List.Forall₂.nil⟩
    intro d
    fin_cases d <;> decide
  · rintro ⟨cs, hrun, _⟩
    rw [hnone] at hrun
    cases hrun
  · rintro ⟨cs, hrun, _⟩
    rw [hnone] at hrun
    cases hrun

/-- C19, amended: if `t` has the people of `s` (same names, same order, same
`PerPersonHours`), each listing day by day at least the hours listed in `s`, and
nobody in `t` lists more than 31 hour entries in all, then every model of the
constraints asserted for `s` is a model of those asserted for `t`; so when the
former are satisfiable, the latter are. -/
theorem more_availability_keeps_models (s t : Schedule) (h : MoreAvailable s t)
    (hroom : ∀ Q ∈ t.People, hourCount Q ≤ 31) :
    (∀ m : String → Int, IsModel m s → IsModel m t) ∧ (Feasible s → Feasible t) := by
  have hmodels : ∀ m : String → Int, IsModel m s → IsModel m t :=
    fun m hm => isModel_moreAvailable m s t h hroom hm
  refine ⟨hmodels, ?_⟩
  rw [feasible_iff, feasible_iff]
  rintro ⟨m, hm⟩
  exact ⟨m, hmodels m hm⟩

theorem more_availability_keeps_models_witness :
    MoreAvailable scenarioA scenarioAMore ∧
      IsModel modelA scenarioA ∧
      IsModel modelA scenarioAMore ∧
      Feasible scenarioAMore :=
  have hmore : MoreAvailable scenarioA scenarioAMore :=
    ⟨rfl, List.Forall₂.cons ⟨rfl, by intro d; fin_cases d <;> decide⟩ List.Forall₂.nil⟩
  have hroom : ∀ Q ∈ scenarioAMore.People, hourCount Q ≤ 31 := by
    intro Q hQ
    simp only [scenarioAMore, List.mem_singleton] at hQ
    subst hQ
    decide
  have hA : IsModel modelA scenarioA := ⟨constraintList scenarioA, by decide, by decide⟩
  have h := more_availability_keeps_models scenarioA scenarioAMore hmore hroom
  ⟨hmore, hA, h.1 modelA hA, h.2 ((feasible_iff _).mpr ⟨modelA, hA⟩)⟩

end Sched
